import Mathlib

/-!
Shallow embedding of `utils.py` from the test-time-ddsp-vocoder repository,
together with theorems settling the frozen claims about it.

Python/NumPy/Torch floating-point arithmetic is modelled over `ℝ` (so
"within floating-point tolerance" claims become exact equalities), lists of
frames over `List ℝ`, boolean masks over `List Bool`, and the float value
`-inf` (produced by `norm_f0` at masked positions) over `⊥ : WithBot ℝ`.
Fallible operations (Python exceptions) are modelled by `Option`-returning
`*_checked` variants whose `none` cases are exactly the raising executions.
-/

namespace TTDV

open Real

/-! ## Mel filterbank (`get_mel_fn`, utils.py lines 10-73)

The HTK branch (lines 29-33) converts Hz to mel via
`2595 * log10(1 + f/700)` and back via `700 * (10^(m/2595) - 1)`.
The Slaney branch (lines 34-55) is linear below 1000 Hz and logarithmic
above, with `logstep = log(6.4)/27`. -/

noncomputable def hz_to_mel_htk (f : ℝ) : ℝ := 2595 * Real.logb 10 (1 + f / 700)

noncomputable def mel_to_hz_htk (m : ℝ) : ℝ := 700 * ((10 : ℝ) ^ (m / 2595) - 1)

noncomputable def f_sp : ℝ := 200 / 3

noncomputable def min_log_hz : ℝ := 1000

noncomputable def min_log_mel : ℝ := min_log_hz / f_sp

noncomputable def logstep : ℝ := Real.log 6.4 / 27

noncomputable def hz_to_mel_slaney (f : ℝ) : ℝ :=
  if min_log_hz ≤ f then min_log_mel + Real.log (f / min_log_hz) / logstep else f / f_sp

noncomputable def mel_to_hz_slaney (m : ℝ) : ℝ :=
  if min_log_mel ≤ m then min_log_hz * Real.exp (logstep * (m - min_log_mel)) else f_sp * m

noncomputable def hz_to_mel (htk : Bool) (f : ℝ) : ℝ :=
  if htk then hz_to_mel_htk f else hz_to_mel_slaney f

noncomputable def mel_to_hz (htk : Bool) (m : ℝ) : ℝ :=
  if htk then mel_to_hz_htk m else mel_to_hz_slaney m

/-- The `n_mels + 2` filter edge frequencies (lines 32-33 resp. 50-55):
`torch.linspace(min_mel, max_mel, n_mels + 2)` produces the points
`min_mel + j * (max_mel - min_mel) / (n_mels + 1)`, which are then mapped
back to Hz. -/
noncomputable def mel_f (fmin fmax : ℝ) (n_mels : ℕ) (htk : Bool) (j : ℕ) : ℝ :=
  mel_to_hz htk
    (hz_to_mel htk fmin +
      (j : ℝ) * (hz_to_mel htk fmax - hz_to_mel htk fmin) / ((n_mels : ℝ) + 1))

/-- FFT bin centre frequencies (line 61): `(sr / n_fft) * arange(0, N)`. -/
noncomputable def fftfreq (sr : ℝ) (n_fft : ℤ) (k : ℕ) : ℝ := sr / (n_fft : ℝ) * (k : ℝ)

/-- `torch.diff(mel_f)` (line 63). -/
noncomputable def fdiff (fmin fmax : ℝ) (n_mels : ℕ) (htk : Bool) (j : ℕ) : ℝ :=
  mel_f fmin fmax n_mels htk (j + 1) - mel_f fmin fmax n_mels htk j

/-- Pre-normalization weight of band `i` at bin `k` (lines 64-68):
`ramps[i][k] = mel_f[i] - fftfreqs[k]`, `lower = -ramps[:-2] / fdiff[:-1]`,
`upper = ramps[2:] / fdiff[1:]`, `weights = max(0, min(lower, upper))`. -/
noncomputable def rawWeight (sr : ℝ) (n_fft : ℤ) (n_mels : ℕ) (fmin fmax : ℝ)
    (htk : Bool) (i k : ℕ) : ℝ :=
  max 0
    (min (-(mel_f fmin fmax n_mels htk i - fftfreq sr n_fft k) / fdiff fmin fmax n_mels htk i)
      ((mel_f fmin fmax n_mels htk (i + 2) - fftfreq sr n_fft k) /
        fdiff fmin fmax n_mels htk (i + 1)))

/-- Row normalizer (line 70): `enorm = 2 / (mel_f[2 : n_mels+2] - mel_f[:n_mels])`. -/
noncomputable def enorm (fmin fmax : ℝ) (n_mels : ℕ) (htk : Bool) (i : ℕ) : ℝ :=
  2 / (mel_f fmin fmax n_mels htk (i + 2) - mel_f fmin fmax n_mels htk i)

/-- Final weight of band `i` at bin `k` (line 71): `weights *= enorm.unsqueeze(1)`. -/
noncomputable def melWeight (sr : ℝ) (n_fft : ℤ) (n_mels : ℕ) (fmin fmax : ℝ)
    (htk : Bool) (i k : ℕ) : ℝ :=
  rawWeight sr n_fft n_mels fmin fmax htk i k * enorm fmin fmax n_mels htk i

/-- Number of columns, `N = 1 + n_fft // 2` (line 58; Python `//` floors). -/
def melN (n_fft : ℤ) : ℕ := (1 + Int.fdiv n_fft 2).toNat

/-- The returned matrix of `get_mel_fn`, of shape `(n_mels, 1 + n_fft // 2)`. -/
noncomputable def get_mel_fn (sr : ℝ) (n_fft : ℤ) (n_mels : ℕ) (fmin fmax : ℝ)
    (htk : Bool) : List (List ℝ) :=
  (List.range n_mels).map fun i =>
    (List.range (melN n_fft)).map fun k => melWeight sr n_fft n_mels fmin fmax htk i k

/-- `get_mel_fn` with its raising executions made explicit.  Tracing the
source: `sr / n_fft` (line 61) raises `ZeroDivisionError` when `n_fft = 0`
(Python int division before tensor promotion), and `torch.zeros((n_mels, N))`
(line 59) raises on a negative dimension — reached when `n_mels < 0` or
when `N = 1 + n_fft // 2 < 0`, i.e. `n_fft ≤ -3` (Python `//` floors, so
`n_fft = -1, -2` give `N = 0`, an empty but legal dimension).  No other
input is rejected: in particular `fmin >= fmax` and `n_mels = 0` return a
tensor normally. -/
noncomputable def get_mel_fn_checked (sr : ℝ) (n_fft n_mels : ℤ) (fmin fmax : ℝ)
    (htk : Bool) : Option (List (List ℝ)) :=
  if n_fft = 0 ∨ n_mels < 0 ∨ 1 + Int.fdiv n_fft 2 < 0 then none
  else some (get_mel_fn sr n_fft n_mels.toNat fmin fmax htk)

/-! Spec-side definitions for the refinement claim C1, following the spec's
words: "Generate n_mels+2 equally spaced points in mel space between the two
endpoints; convert back to Hz ... these are filter edge/center frequencies"
and "weight at bin k = max(0, min((bin_k − f[i]) / (f[i+1] − f[i]),
(f[i+2] − bin_k) / (f[i+2] − f[i+1])))". -/

/-- Modelled from the spec: edge frequency `j` of the filterbank, the `j`-th
of `n_mels + 2` equally spaced mel points between `mel(fmin)` and
`mel(fmax)` converted back to Hz. -/
noncomputable def specMelEdge (fmin fmax : ℝ) (n_mels : ℕ) (htk : Bool) (j : ℕ) : ℝ :=
  mel_to_hz htk
    (hz_to_mel htk fmin +
      (j : ℝ) * (hz_to_mel htk fmax - hz_to_mel htk fmin) / ((n_mels : ℝ) + 1))

/-- Modelled from the spec: the triangular weight
`max(0, min((bin_k − f[i]) / (f[i+1] − f[i]), (f[i+2] − bin_k) / (f[i+2] − f[i+1])))`. -/
noncomputable def specTriWeight (sr : ℝ) (n_fft : ℤ) (n_mels : ℕ) (fmin fmax : ℝ)
    (htk : Bool) (i k : ℕ) : ℝ :=
  max 0
    (min ((fftfreq sr n_fft k - specMelEdge fmin fmax n_mels htk i) /
        (specMelEdge fmin fmax n_mels htk (i + 1) - specMelEdge fmin fmax n_mels htk i))
      ((specMelEdge fmin fmax n_mels htk (i + 2) - fftfreq sr n_fft k) /
        (specMelEdge fmin fmax n_mels htk (i + 2) - specMelEdge fmin fmax n_mels htk (i + 1))))

/-- **C1.** For every valid input, the pre-normalization weight of band `i`
at FFT bin `k` computed by `get_mel_fn` (via `ramps`/`fdiff`, lines 63-68)
equals the spec's triangular formula over the edge frequencies obtained by
generating `n_mels + 2` equally spaced mel points between `mel(fmin)` and
`mel(fmax)` and converting them back to Hz. -/
theorem c1_raw_weights_match_spec (sr : ℝ) (n_fft : ℤ) (n_mels : ℕ) (fmin fmax : ℝ)
    (htk : Bool) (i k : ℕ)
    (hsr : 0 < sr) (hfft : 0 < n_fft) (heven : Even n_fft) (hmels : 0 < n_mels)
    (hfmin : 0 < fmin) (hrange : fmin < fmax) (hi : i < n_mels) (hk : k < melN n_fft) :
    rawWeight sr n_fft n_mels fmin fmax htk i k =
      specTriWeight sr n_fft n_mels fmin fmax htk i k := by
  unfold rawWeight specTriWeight specMelEdge fdiff mel_f
  rw [neg_sub]

/-- Witness for C1 at a concrete valid input. -/
theorem c1_witness :
    (0 : ℝ) < 44100 ∧ (0 : ℤ) < 2048 ∧ Even (2048 : ℤ) ∧ 0 < 128 ∧
      (0 : ℝ) < 20 ∧ (20 : ℝ) < 22050 ∧ 0 < 128 ∧ 3 < melN 2048 ∧
      rawWeight 44100 2048 128 20 22050 true 0 3 =
        specTriWeight 44100 2048 128 20 22050 true 0 3 :=
  ⟨by norm_num, by norm_num, ⟨1024, by norm_num⟩, by norm_num, by norm_num, by norm_num,
    by norm_num, by decide,
    c1_raw_weights_match_spec 44100 2048 128 20 22050 true 0 3 (by norm_num) (by norm_num)
      ⟨1024, by norm_num⟩ (by norm_num) (by norm_num) (by norm_num) (by norm_num) (by decide)⟩

/-- **C2.** For every valid input and both scale variants, the final weight
of `get_mel_fn` is the triangular weight of row `i` multiplied by
`2 / (f[i+2] - f[i])`; the normalization is applied for both values of the
`htk` argument (lines 70-71 run unconditionally). -/
theorem c2_area_normalization (sr : ℝ) (n_fft : ℤ) (n_mels : ℕ) (fmin fmax : ℝ)
    (i k : ℕ)
    (hsr : 0 < sr) (hfft : 0 < n_fft) (heven : Even n_fft) (hmels : 0 < n_mels)
    (hfmin : 0 < fmin) (hrange : fmin < fmax) (hi : i < n_mels) (hk : k < melN n_fft) :
    ∀ htk : Bool,
      melWeight sr n_fft n_mels fmin fmax htk i k =
        rawWeight sr n_fft n_mels fmin fmax htk i k *
          (2 / (mel_f fmin fmax n_mels htk (i + 2) - mel_f fmin fmax n_mels htk i)) := by
  intro htk
  rfl

/-- Witness for C2 at a concrete valid input (both variants). -/
theorem c2_witness :
    (0 : ℝ) < 44100 ∧ (0 : ℤ) < 2048 ∧ Even (2048 : ℤ) ∧ 0 < 128 ∧
      (0 : ℝ) < 20 ∧ (20 : ℝ) < 22050 ∧ 0 < 128 ∧ 5 < melN 2048 ∧
      (∀ htk : Bool,
        melWeight 44100 2048 128 20 22050 htk 2 5 =
          rawWeight 44100 2048 128 20 22050 htk 2 5 *
            (2 / (mel_f 20 22050 128 htk 4 - mel_f 20 22050 128 htk 2))) :=
  ⟨by norm_num, by norm_num, ⟨1024, by norm_num⟩, by norm_num, by norm_num, by norm_num,
    by norm_num, by decide,
    c2_area_normalization 44100 2048 128 20 22050 2 5 (by norm_num) (by norm_num)
      ⟨1024, by norm_num⟩ (by norm_num) (by norm_num) (by norm_num) (by norm_num) (by decide)⟩

/-! Monotonicity of the two mel scales, used to show the filter edge
frequencies are strictly increasing and hence the area normalizer positive. -/

lemma logstep_pos : 0 < logstep :=
  div_pos (Real.log_pos (by norm_num)) (by norm_num)

lemma min_log_mel_eq : min_log_mel = 15 := by
  unfold min_log_mel min_log_hz f_sp
  norm_num

lemma mel_to_hz_htk_strictMono : StrictMono mel_to_hz_htk := by
  intro a b hab
  unfold mel_to_hz_htk
  have h : (10 : ℝ) ^ (a / 2595) < 10 ^ (b / 2595) := by
    rw [Real.rpow_lt_rpow_left_iff (by norm_num : (1 : ℝ) < 10)]
    linarith
  linarith

lemma mel_to_hz_slaney_strictMono : StrictMono mel_to_hz_slaney := by
  have hls := logstep_pos
  intro a b hab
  simp only [mel_to_hz_slaney, min_log_mel_eq, min_log_hz]
  split_ifs with ha hb hb
  · have h1 : logstep * (a - 15) < logstep * (b - 15) := by nlinarith
    have h2 := Real.exp_lt_exp.mpr h1
    nlinarith
  · linarith
  · have h1 : f_sp * a < 1000 := by unfold f_sp; push_neg at ha; nlinarith
    have h2 : (1 : ℝ) ≤ Real.exp (logstep * (b - 15)) := by
      have h3 := Real.add_one_le_exp (logstep * (b - 15))
      nlinarith
    nlinarith
  · have h1 : (0 : ℝ) < f_sp := by unfold f_sp; norm_num
    nlinarith

lemma mel_to_hz_lt (htk : Bool) {a b : ℝ} (hab : a < b) :
    mel_to_hz htk a < mel_to_hz htk b := by
  cases htk
  · simpa [mel_to_hz] using mel_to_hz_slaney_strictMono hab
  · simpa [mel_to_hz] using mel_to_hz_htk_strictMono hab

lemma hz_to_mel_lt (htk : Bool) {a b : ℝ} (ha : 0 < a) (hab : a < b) :
    hz_to_mel htk a < hz_to_mel htk b := by
  cases htk
  · have hls := logstep_pos
    simp only [hz_to_mel, Bool.false_eq_true, if_false, hz_to_mel_slaney,
      min_log_mel_eq, min_log_hz]
    split_ifs with h1 h2 h2
    · have hlog : Real.log (a / 1000) < Real.log (b / 1000) :=
        Real.log_lt_log (by positivity) (by linarith)
      have hdiv : Real.log (a / 1000) / logstep < Real.log (b / 1000) / logstep := by
        rw [div_lt_div_iff_of_pos_right hls]
        exact hlog
      linarith
    · linarith
    · have hfa : a / f_sp < 15 := by unfold f_sp; push_neg at h1; nlinarith
      have hlog : 0 ≤ Real.log (b / 1000) := Real.log_nonneg (by nlinarith)
      have hdiv : 0 ≤ Real.log (b / 1000) / logstep := div_nonneg hlog hls.le
      linarith
    · have h1 : (0 : ℝ) < f_sp := by unfold f_sp; norm_num
      rw [div_lt_div_iff_of_pos_right h1]
      exact hab
  · simp only [hz_to_mel, if_true]
    unfold hz_to_mel_htk
    have h : Real.logb 10 (1 + a / 700) < Real.logb 10 (1 + b / 700) :=
      Real.logb_lt_logb (by norm_num) (by linarith) (by linarith)
    linarith

lemma mel_f_lt (fmin fmax : ℝ) (n_mels : ℕ) (htk : Bool) {j1 j2 : ℕ}
    (hfmin : 0 < fmin) (hr : fmin < fmax) (hj : j1 < j2) :
    mel_f fmin fmax n_mels htk j1 < mel_f fmin fmax n_mels htk j2 := by
  unfold mel_f
  apply mel_to_hz_lt
  have hm : hz_to_mel htk fmin < hz_to_mel htk fmax := hz_to_mel_lt htk hfmin hr
  have hd : (0 : ℝ) < (n_mels : ℝ) + 1 := by positivity
  have hjj : (j1 : ℝ) < (j2 : ℝ) := by exact_mod_cast hj
  rw [add_lt_add_iff_left, div_lt_div_iff_of_pos_right hd]
  nlinarith

lemma enorm_pos (fmin fmax : ℝ) (n_mels : ℕ) (htk : Bool) (i : ℕ)
    (hfmin : 0 < fmin) (hr : fmin < fmax) :
    0 < enorm fmin fmax n_mels htk i := by
  unfold enorm
  have h := mel_f_lt fmin fmax n_mels htk hfmin hr (show i < i + 2 by omega)
  have : (0 : ℝ) < mel_f fmin fmax n_mels htk (i + 2) - mel_f fmin fmax n_mels htk i := by
    linarith
  positivity

/-- **C9.** For every valid input, `get_mel_fn` returns a matrix of shape
`(n_mels, n_fft / 2 + 1)` whose entries are all non-negative. -/
theorem c9_shape_nonneg (sr : ℝ) (n_fft : ℤ) (n_mels : ℕ) (fmin fmax : ℝ) (htk : Bool)
    (hsr : 0 < sr) (hfft : 0 < n_fft) (heven : Even n_fft) (hmels : 0 < n_mels)
    (hfmin : 0 < fmin) (hr : fmin < fmax) :
    (get_mel_fn sr n_fft n_mels fmin fmax htk).length = n_mels ∧
      ∀ row ∈ get_mel_fn sr n_fft n_mels fmin fmax htk,
        row.length = melN n_fft ∧ ∀ x ∈ row, 0 ≤ x := by
  constructor
  · simp [get_mel_fn]
  · intro row hrow
    simp only [get_mel_fn, List.mem_map, List.mem_range] at hrow
    obtain ⟨i, hi, rfl⟩ := hrow
    refine ⟨by simp, ?_⟩
    intro x hx
    simp only [List.mem_map, List.mem_range] at hx
    obtain ⟨k, hk, rfl⟩ := hx
    unfold melWeight
    apply mul_nonneg
    · exact le_max_left 0 _
    · exact (enorm_pos fmin fmax n_mels htk i hfmin hr).le

/-- Witness for C9 at the spec's example input
`fft_size = 2048, sample_rate = 44100, n_mels = 128, fmin = 20, fmax = 22050`:
output shape `(128, 1025)`, all entries non-negative. -/
theorem c9_witness :
    (0 : ℝ) < 44100 ∧ (0 : ℤ) < 2048 ∧ Even (2048 : ℤ) ∧ 0 < 128 ∧
      (0 : ℝ) < 20 ∧ (20 : ℝ) < 22050 ∧ melN 2048 = 1025 ∧
      ((get_mel_fn 44100 2048 128 20 22050 false).length = 128 ∧
        ∀ row ∈ get_mel_fn 44100 2048 128 20 22050 false,
          row.length = melN 2048 ∧ ∀ x ∈ row, 0 ≤ x) :=
  ⟨by norm_num, by norm_num, ⟨1024, by norm_num⟩, by norm_num, by norm_num, by norm_num,
    by decide,
    c9_shape_nonneg 44100 2048 128 20 22050 false (by norm_num) (by norm_num)
      ⟨1024, by norm_num⟩ (by norm_num) (by norm_num) (by norm_num)⟩

/-! ## F0 normalization and interpolation (utils.py lines 83-124)

Pitch contours are `List ℝ`, voicing masks `List Bool` (`true` = unvoiced).
The float `-inf` written by `norm_f0` at masked positions is modelled as
`⊥ : WithBot ℝ`. -/

/-- Numeric value of a mask entry: NumPy adds booleans to floats as 0/1
(the `f0 + uv` trick on line 87). -/
noncomputable def boolInd (u : Bool) : ℝ := if u then 1 else 0

/-- `norm_f0` (lines 83-90) with an explicitly supplied mask: computes
`log2(f0 + uv)` elementwise, then forces masked positions to `-inf` (`⊥`). -/
noncomputable def norm_f0 (f0 : List ℝ) (uv : List Bool) : List (WithBot ℝ) :=
  List.zipWith (fun y u => if u then (⊥ : WithBot ℝ) else ((y : ℝ) : WithBot ℝ))
    (List.zipWith (fun x u => Real.logb 2 (x + boolInd u)) f0 uv) uv

/-- The mask derived when `uv is None`: `uv = f0 == 0` (lines 84-85). -/
noncomputable def derive_uv : List ℝ → List Bool
  | [] => []
  | x :: xs => (if x = 0 then true else false) :: derive_uv xs

/-- `2 ** f0` elementwise on the extended value: `2 ** -inf = 0` in floating
point, which the `⊥` case mirrors. -/
noncomputable def exp2w (v : WithBot ℝ) : ℝ :=
  WithBot.recBotCoe 0 (fun x => (2 : ℝ) ^ x) v

/-- `denorm_f0` (lines 92-101, with `pitch_padding = None`): `f0 = 2 ** f0`,
then positions where `uv > 0` are zeroed when a mask is supplied. -/
noncomputable def denorm_f0 (l : List (WithBot ℝ)) (uv : Option (List Bool)) : List ℝ :=
  match uv with
  | none => l.map exp2w
  | some uv => List.zipWith (fun y u => if u then 0 else y) (l.map exp2w) uv

/-- `np.interp t xp fp` over knots `(xp i, fp i)` with strictly increasing
`xp`: endpoint values outside the knot range, linear interpolation between
consecutive knots. -/
noncomputable def npInterp (t : ℝ) : List (ℝ × ℝ) → ℝ
  | [] => 0
  | [(_, fa)] => fa
  | (xa, fa) :: (xb, fb) :: rest =>
    if t ≤ xa then fa
    else if t ≤ xb then fa + (fb - fa) * (t - xa) / (xb - xa)
    else npInterp t ((xb, fb) :: rest)

/-- Indices (as reals) and values of the voiced positions, i.e.
`np.where(~uv)[0]` paired with `f0[~uv]` (lines 111 and 122). -/
noncomputable def voicedKnotsAux : ℕ → List (WithBot ℝ) → List Bool → List (ℝ × ℝ)
  | _, [], _ => []
  | _, _ :: _, [] => []
  | i, x :: xs, u :: us =>
    if u then voicedKnotsAux (i + 1) xs us
    else ((i : ℝ), x.unbot' 0) :: voicedKnotsAux (i + 1) xs us

noncomputable def voicedKnots (l : List (WithBot ℝ)) (uv : List Bool) : List (ℝ × ℝ) :=
  voicedKnotsAux 0 l uv

/-- `f0[uv] = g(np.where(uv)[0])`: replace each masked position `i` by the
interpolant `g` evaluated at `i`. -/
noncomputable def fillAux (g : ℝ → ℝ) : ℕ → List (WithBot ℝ) → List Bool → List (WithBot ℝ)
  | _, [], _ => []
  | _, l, [] => l
  | i, x :: xs, u :: us =>
    (if u then ((g (i : ℝ) : ℝ) : WithBot ℝ) else x) :: fillAux g (i + 1) xs us

/-- `interp_f0` (lines 116-124) with an explicit mask: normalize, fill the
masked positions by piecewise-linear interpolation over the voiced knots
when there is at least one voiced and one unvoiced frame, then denormalize
with `uv=None`. -/
noncomputable def interp_f0 (f0 : List ℝ) (uv : List Bool) : List ℝ × List Bool :=
  let fn := norm_f0 f0 uv
  let filled :=
    if uv.any id && !uv.all id then
      fillAux (fun t => npInterp t (voicedKnots fn uv)) 0 fn uv
    else fn
  (denorm_f0 filled none, uv)

/-- `np.max` on a non-empty list (`np.max` raises on an empty one). -/
noncomputable def listMax : List ℝ → ℝ
  | [] => 0
  | x :: xs => xs.foldl max x

/-- `torch.min` / `np.min` on a non-empty list. -/
noncomputable def listMin : List ℝ → ℝ
  | [] => 0
  | x :: xs => xs.foldl min x

lemma norm_f0_cons (x : ℝ) (u : Bool) (xs : List ℝ) (us : List Bool) :
    norm_f0 (x :: xs) (u :: us) =
      (if u then (⊥ : WithBot ℝ) else ((Real.logb 2 (x + boolInd u) : ℝ) : WithBot ℝ)) ::
        norm_f0 xs us := by
  simp [norm_f0]

lemma norm_f0_length (f0 : List ℝ) (uv : List Bool) (hlen : uv.length = f0.length) :
    (norm_f0 f0 uv).length = f0.length := by
  simp [norm_f0]
  omega

lemma norm_f0_getD (f0 : List ℝ) (uv : List Bool) :
    ∀ i, i < f0.length → i < uv.length →
      (norm_f0 f0 uv).getD i 0 =
        if uv.getD i false then (⊥ : WithBot ℝ)
        else ((Real.logb 2 (f0.getD i 0 + boolInd (uv.getD i false)) : ℝ) : WithBot ℝ) := by
  induction f0 generalizing uv with
  | nil => intro i hi _; simp at hi
  | cons x xs ih =>
    intro i hi hu
    cases uv with
    | nil => simp at hu
    | cons u us =>
      rw [norm_f0_cons]
      cases i with
      | zero => simp
      | succ n =>
        simp only [List.getD_cons_succ]
        exact ih us n (by simpa using hi) (by simpa using hu)

lemma denorm_none_getD (l : List (WithBot ℝ)) (i : ℕ) (hi : i < l.length) :
    (denorm_f0 l none).getD i 0 = exp2w (l.getD i 0) := by
  simp only [denorm_f0]
  rw [List.getD_eq_getElem?_getD, List.getElem?_map,
    List.getElem?_eq_getElem hi, List.getD_eq_getElem?_getD,
    List.getElem?_eq_getElem hi]
  rfl

/-- **C5.** For every contour with strictly positive values at unmasked
positions, `denorm_f0` applied to `norm_f0 f0 uv` with `uv = None` returns
the original values at the unmasked positions (exact round trip over `ℝ`). -/
theorem c5_roundtrip_voiced (f0 : List ℝ) (uv : List Bool)
    (hlen : uv.length = f0.length)
    (hpos : ∀ i, i < f0.length → uv.getD i false = false → 0 < f0.getD i 0) :
    ∀ i, i < f0.length → uv.getD i false = false →
      (denorm_f0 (norm_f0 f0 uv) none).getD i 0 = f0.getD i 0 := by
  intro i hi hu
  rw [denorm_none_getD _ i (by rw [norm_f0_length f0 uv hlen]; exact hi)]
  rw [norm_f0_getD f0 uv i hi (by omega), hu]
  have hx := hpos i hi hu
  simp only [Bool.false_eq_true, if_false, exp2w, WithBot.recBotCoe_coe, boolInd, add_zero]
  exact Real.rpow_logb (by norm_num) (by norm_num) hx

/-- Witness for C5: the voiced position `0` of `[440, 0]` with mask
`[false, true]` survives the round trip. -/
theorem c5_witness :
    ([false, true] : List Bool).length = ([440, 0] : List ℝ).length ∧
      (denorm_f0 (norm_f0 [440, 0] [false, true]) none).getD 0 0 =
        ([440, 0] : List ℝ).getD 0 0 :=
  ⟨rfl,
    c5_roundtrip_voiced [440, 0] [false, true] rfl
      (by
        intro i hi hu
        simp only [List.length_cons, List.length_nil] at hi
        interval_cases i
        · simp only [List.getD_cons_zero]; norm_num
        · simp at hu)
      0 (by norm_num) rfl⟩

/-- **C6.** For every non-negative contour whose mask covers all its zero
entries, `norm_f0` returns `log2(contour + mask)` elementwise with every
masked position forced to `-inf` (`⊥`): masked positions are exactly `⊥`,
unmasked positions are the finite values `log2(f0 i)` (no undefined value
is produced). -/
theorem c6_norm_masked (f0 : List ℝ) (uv : List Bool)
    (hlen : uv.length = f0.length)
    (hnn : ∀ x ∈ f0, 0 ≤ x)
    (hcov : ∀ i, i < f0.length → f0.getD i 0 = 0 → uv.getD i false = true) :
    ∀ i, i < f0.length →
      (uv.getD i false = true → (norm_f0 f0 uv).getD i 0 = ⊥) ∧
      (uv.getD i false = false →
        (norm_f0 f0 uv).getD i 0 = ((Real.logb 2 (f0.getD i 0) : ℝ) : WithBot ℝ) ∧
          (norm_f0 f0 uv).getD i 0 ≠ ⊥) := by
  intro i hi
  constructor
  · intro hu
    rw [norm_f0_getD f0 uv i hi (by omega), hu]
    simp
  · intro hu
    rw [norm_f0_getD f0 uv i hi (by omega), hu]
    simp only [Bool.false_eq_true, if_false, boolInd, add_zero]
    exact ⟨by simp, WithBot.coe_ne_bot⟩

/-- Witness for C6 on `[440, 0]` with mask `[false, true]`: position 1 is
`⊥`, position 0 is the finite value `log2 440`. -/
theorem c6_witness :
    (∀ x ∈ ([440, 0] : List ℝ), 0 ≤ x) ∧
      (norm_f0 [440, 0] [false, true]).getD 1 0 = ⊥ ∧
(norm_f0 [440, 0] [false, true]).getD 0 0 = ((Real.logb 2 440 : ℝ) : WithBot ℝ) := by
  have hnn : ∀ x ∈ ([440, 0] : List ℝ), 0 ≤ x := by
    intro x hx
    simp only [List.mem_cons, List.mem_singleton] at hx
    rcases hx with rfl | hx
    · norm_num
    · rcases hx with rfl | hx
      · norm_num
      · simp at hx
  have hcov : ∀ i, i < ([440, 0] : List ℝ).length →
      ([440, 0] : List ℝ).getD i 0 = 0 → ([false, true] : List Bool).getD i false = true := by
    intro i hi hz
    simp only [List.length_cons, List.length_nil] at hi
    interval_cases i
    · simp only [List.getD_cons_zero] at hz; norm_num at hz
    · rfl
  refine ⟨hnn, ?_, ?_⟩
  · exact (c6_norm_masked [440, 0] [false, true] rfl hnn hcov 1 (by norm_num)).1 rfl
  · have h := (c6_norm_masked [440, 0] [false, true] rfl hnn hcov 0 (by norm_num)).2 rfl
    simpa using h.1

/-! ## Cubic spline (scipy `CubicSpline`, utils.py line 111)

`interp_f0_spline` calls `scipy.interpolate.CubicSpline(x, y)` with the
default boundary condition `bc_type='not-a-knot'`.  The spline is modelled
in the classical second-derivative (moment) form, which determines the same
piecewise cubic: the moments `M i = s''(x i)` solve a tridiagonal system
whose closing conditions are, for not-a-knot, third-derivative continuity
at the second and second-to-last knots.  scipy special-cases two knots
(straight line) and three knots (the parabola through the points). -/

structure Seg where
  xa : ℝ
  xb : ℝ
  ya : ℝ
  yb : ℝ
  ma : ℝ
  mb : ℝ

/-- Value on one spline segment in moment form. -/
noncomputable def segVal (s : Seg) (t : ℝ) : ℝ :=
  s.ma * (s.xb - t) ^ 3 / (6 * (s.xb - s.xa)) + s.mb * (t - s.xa) ^ 3 / (6 * (s.xb - s.xa)) +
    (s.ya - s.ma * (s.xb - s.xa) ^ 2 / 6) * (s.xb - t) / (s.xb - s.xa) +
    (s.yb - s.mb * (s.xb - s.xa) ^ 2 / 6) * (t - s.xa) / (s.xb - s.xa)

noncomputable def buildSegs : List (ℝ × ℝ) → List ℝ → List Seg
  | (xa, ya) :: (xb, yb) :: ks, m0 :: m1 :: ms =>
    ⟨xa, xb, ya, yb, m0, m1⟩ :: buildSegs ((xb, yb) :: ks) (m1 :: ms)
  | _, _ => []

/-- Piecewise evaluation; queries beyond the ends use the end segments
(scipy's default `extrapolate=True`). -/
noncomputable def evalSegs : List Seg → ℝ → ℝ
  | [], _ => 0
  | [s], t => segVal s t
  | s :: s2 :: rest, t => if t ≤ s.xb then segVal s t else evalSegs (s2 :: rest) t

noncomputable def diffs : List ℝ → List ℝ
  | x :: y :: rest => (y - x) :: diffs (y :: rest)
  | _ => []

/-- Forward sweep of the Thomas tridiagonal algorithm on rows `(a, b, c, d)`. -/
noncomputable def thomasFwd : ℝ × ℝ → List (ℝ × ℝ × ℝ × ℝ) → List (ℝ × ℝ)
  | _, [] => []
  | (cp, dp), (a, b, c, d) :: rest =>
    let den := b - a * cp
    (c / den, (d - a * dp) / den) :: thomasFwd (c / den, (d - a * dp) / den) rest

noncomputable def thomasBwd : List (ℝ × ℝ) → List ℝ
  | [] => []
  | (cq, dq) :: rest => (dq - cq * (thomasBwd rest).headD 0) :: thomasBwd rest

noncomputable def thomasSolve (rows : List (ℝ × ℝ × ℝ × ℝ)) : List ℝ :=
  thomasBwd (thomasFwd (0, 0) rows)

/-- Interior moment equations: for knots `i = 1 .. n-2` the row is
`h(i-1) * M(i-1) + 2*(h(i-1) + h(i)) * M(i) + h(i) * M(i+1) = 6 * (slope i - slope (i-1))`. -/
noncomputable def momentRows (xs ys : List ℝ) : List (ℝ × ℝ × ℝ × ℝ) :=
  let hs := diffs xs
  let gaps := (diffs (List.zipWith (fun dy h => dy / h) (diffs ys) hs)).map fun g => 6 * g
  List.zipWith (fun (hp : ℝ × ℝ) g => (hp.1, 2 * (hp.1 + hp.2), hp.2, g)) (hs.zip (hs.drop 1))
    gaps

def modifyHead {α : Type} (f : α → α) : List α → List α
  | [] => []
  | x :: xs => f x :: xs

def modifyLast {α : Type} (f : α → α) : List α → List α
  | [] => []
  | [x] => [f x]
  | x :: xs => x :: modifyLast f xs

/-- Moments of the not-a-knot cubic spline: `M 0` and `M (n-1)` are the
linear extrapolations of their neighbours (third-derivative continuity at
the second and second-to-last knots); substituting them into the first and
last interior equations keeps the system tridiagonal. -/
noncomputable def notAKnotMoments (xs ys : List ℝ) : List ℝ :=
  let hs := diffs xs
  let h0 := hs.getD 0 0
  let h1 := hs.getD 1 0
  let hl := hs.reverse.getD 0 0
  let hq := hs.reverse.getD 1 0
  let rows := modifyLast
      (fun r => (r.1 - hl * hl / hq, r.2.1 + hl * (hl + hq) / hq, r.2.2.1, r.2.2.2))
      (modifyHead
        (fun r => (r.1, r.2.1 + h0 * (h0 + h1) / h1, r.2.2.1 - h0 * h0 / h1, r.2.2.2))
        (momentRows xs ys))
  let inner := thomasSolve rows
  let m1 := inner.getD 0 0
  let m2 := inner.getD 1 0
  let mn2 := inner.reverse.getD 0 0
  let mn3 := inner.reverse.getD 1 0
  (((h0 + h1) * m1 - h0 * m2) / h1) :: (inner ++ [((hl + hq) * mn2 - hl * mn3) / hq])

/-- `scipy.interpolate.CubicSpline(xs, ys)(t)` with the default
`bc_type='not-a-knot'`: a straight line through two knots, the parabola
through three, the not-a-knot cubic spline otherwise.  On fewer than two
knots `CubicSpline` raises `ValueError` — a raising execution, modelled in
`interp_f0_spline_checked`; the `0` returned here for those cases is a junk
value that no theorem relies on (theorems about the fill restrict to at
least two voiced knots). -/
noncomputable def scipyCubicSpline (ks : List (ℝ × ℝ)) (t : ℝ) : ℝ :=
  match ks with
  | [] => 0
  | [_] => 0
  | [(x0, y0), (x1, y1)] => y0 + (y1 - y0) * (t - x0) / (x1 - x0)
  | [(x0, y0), (x1, y1), (x2, y2)] =>
    y0 * (t - x1) * (t - x2) / ((x0 - x1) * (x0 - x2)) +
      y1 * (t - x0) * (t - x2) / ((x1 - x0) * (x1 - x2)) +
      y2 * (t - x0) * (t - x1) / ((x2 - x0) * (x2 - x1))
  | ks => evalSegs (buildSegs ks (notAKnotMoments (ks.map Prod.fst) (ks.map Prod.snd))) t

/-- `interp_f0_spline` (lines 104-114) with an explicit mask: record
`f0max = np.max(f0)`, normalize, fill masked positions with the scipy
cubic spline over the voiced knots when there is at least one voiced and
one unvoiced frame, denormalize with `uv=None`, and clip to `[0, f0max]`. -/
noncomputable def interp_f0_spline (f0 : List ℝ) (uv : List Bool) : List ℝ × List Bool :=
  let f0max := listMax f0
  let fn := norm_f0 f0 uv
  let filled :=
    if uv.any id && !uv.all id then
      fillAux (fun t => scipyCubicSpline (voicedKnots fn uv) t) 0 fn uv
    else fn
  ((denorm_f0 filled none).map (fun y => min (max y 0) f0max), uv)

lemma foldl_max_le (xs : List ℝ) : ∀ a : ℝ, a ≤ xs.foldl max a ∧ ∀ x ∈ xs, x ≤ xs.foldl max a := by
  induction xs with
  | nil => intro a; exact ⟨le_refl a, by simp⟩
  | cons y ys ih =>
    intro a
    have h := ih (max a y)
    refine ⟨le_trans (le_max_left a y) h.1, ?_⟩
    intro x hx
    rcases List.mem_cons.mp hx with rfl | hx
    · exact le_trans (le_max_right a x) h.1
    · exact h.2 x hx

lemma listMax_ge (l : List ℝ) : ∀ x ∈ l, x ≤ listMax l := by
  intro x hx
  cases l with
  | nil => simp at hx
  | cons y ys =>
    rcases List.mem_cons.mp hx with rfl | hx
    · exact (foldl_max_le ys x).1
    · exact (foldl_max_le ys y).2 x hx

lemma any_eq_false_of_all_false (uv : List Bool) (h : ∀ u ∈ uv, u = false) :
    uv.any id = false := by
  rw [List.any_eq_false]
  intro u hu
  simpa using h u hu

lemma denorm_norm_id (f0 : List ℝ) (uv : List Bool)
    (hlen : uv.length = f0.length)
    (hall : ∀ u ∈ uv, u = false)
    (hpos : ∀ x ∈ f0, 0 < x) :
    denorm_f0 (norm_f0 f0 uv) none = f0 := by
  induction f0 generalizing uv with
  | nil => simp [norm_f0, denorm_f0]
  | cons x xs ih =>
    cases uv with
    | nil => simp at hlen
    | cons u us =>
      have hu : u = false := hall u (by simp)
      subst hu
      have hx : (0 : ℝ) < x := hpos x (by simp)
      rw [norm_f0_cons]
      simp only [Bool.false_eq_true, if_false, denorm_f0, List.map_cons]
      have htail := ih us (by simpa using hlen) (fun v hv => hall v (by simp [hv]))
        (fun y hy => hpos y (by simp [hy]))
      simp only [denorm_f0] at htail
      rw [htail]
      congr 1
      simp only [exp2w, WithBot.recBotCoe_coe, boolInd, Bool.false_eq_true, if_false, add_zero]
      have h2 : (2 : ℝ) ^ Real.logb 2 x = x := Real.rpow_logb (by norm_num) (by norm_num) hx
      exact h2

lemma clip_id (M : ℝ) (l : List ℝ) (hl : ∀ x ∈ l, 0 < x ∧ x ≤ M) :
    l.map (fun y => min (max y 0) M) = l := by
  induction l with
  | nil => rfl
  | cons x xs ih =>
    have hx := hl x (by simp)
    simp only [List.map_cons]
    rw [max_eq_left hx.1.le, min_eq_left hx.2, ih (fun y hy => hl y (by simp [hy]))]

/-- **C7.** On an all-voiced contour (no `true` in the mask, all values
positive), both `interp_f0` and `interp_f0_spline` return the input contour
unchanged together with the all-false mask (exactly, over `ℝ`). -/
theorem c7_allvoiced_identity (f0 : List ℝ) (uv : List Bool)
    (hlen : uv.length = f0.length)
    (hall : ∀ u ∈ uv, u = false)
    (hpos : ∀ x ∈ f0, 0 < x)
    (hne : f0 ≠ []) :
    interp_f0 f0 uv = (f0, uv) ∧ interp_f0_spline f0 uv = (f0, uv) := by
  have hany : uv.any id = false := any_eq_false_of_all_false uv hall
  have hdn := denorm_norm_id f0 uv hlen hall hpos
  constructor
  · unfold interp_f0
    rw [hany]
    simpa using hdn
  · unfold interp_f0_spline
    rw [hany]
    simp only [Bool.false_and, Bool.false_eq_true, if_false, Prod.mk.injEq, and_true]
    rw [hdn]
    exact clip_id (listMax f0) f0 fun x hx => ⟨hpos x hx, listMax_ge f0 x hx⟩

/-- Witness for C7 on the all-voiced contour `[220, 330]`. -/
theorem c7_witness :
    ([false, false] : List Bool).length = ([220, 330] : List ℝ).length ∧
      ([220, 330] : List ℝ) ≠ [] ∧
      interp_f0 [220, 330] [false, false] = ([220, 330], [false, false]) ∧
      interp_f0_spline [220, 330] [false, false] = ([220, 330], [false, false]) := by
  have h := c7_allvoiced_identity [220, 330] [false, false] rfl
    (by intro u hu; fin_cases hu <;> rfl)
    (by intro x hx; fin_cases hx <;> norm_num)
    (by simp)
  exact ⟨rfl, by simp, h.1, h.2⟩

/-! ## Single unvoiced run between two voiced frames (`interp_f0`)

A contour of the shape `a :: replicate m 0 ++ [b]` (`a, b > 0`, `m ≥ 1`)
has one unvoiced run strictly between two voiced frames. -/

/-- The value `interp_f0` assigns to the `j`-th frame of the gap:
linear interpolation in log2 domain between the two voiced endpoints,
mapped back through `2 ^ ·`. -/
noncomputable def gapFillVal (a b : ℝ) (m j : ℕ) : ℝ :=
  (2 : ℝ) ^ (Real.logb 2 a + (Real.logb 2 b - Real.logb 2 a) * ((j : ℝ) + 1) / ((m : ℝ) + 1))

lemma derive_uv_mid (b : ℝ) (m : ℕ) (hb : b ≠ 0) :
    derive_uv (List.replicate m 0 ++ [b]) = List.replicate m true ++ [false] := by
  induction m with
  | zero => simp [derive_uv, hb]
  | succ n ih => simp [List.replicate_succ, derive_uv, ih]

lemma norm_f0_mid (b : ℝ) (m : ℕ) :
    norm_f0 (List.replicate m 0 ++ [b]) (List.replicate m true ++ [false]) =
      List.replicate m (⊥ : WithBot ℝ) ++ [((Real.logb 2 b : ℝ) : WithBot ℝ)] := by
  induction m with
  | zero => simp [norm_f0, boolInd]
  | succ n ih => simp [List.replicate_succ, norm_f0_cons, ih]

lemma voicedKnots_mid (lb : ℝ) (m : ℕ) :
    ∀ s : ℕ, voicedKnotsAux s (List.replicate m (⊥ : WithBot ℝ) ++ [((lb : ℝ) : WithBot ℝ)])
        (List.replicate m true ++ [false]) = [(((s + m : ℕ) : ℝ), lb)] := by
  induction m with
  | zero => intro s; simp [voicedKnotsAux]
  | succ n ih =>
    intro s
    simp only [List.replicate_succ, List.cons_append, voicedKnotsAux, if_true, List.append_eq]
    rw [ih (s + 1)]
    have h : s + 1 + n = s + (n + 1) := by omega
    rw [h]

lemma fillAux_mid (g : ℝ → ℝ) (lb : ℝ) (m : ℕ) :
    ∀ s : ℕ, fillAux g s (List.replicate m (⊥ : WithBot ℝ) ++ [((lb : ℝ) : WithBot ℝ)])
        (List.replicate m true ++ [false]) =
      (List.range m).map (fun j => ((g (((s + j : ℕ) : ℝ)) : ℝ) : WithBot ℝ)) ++
        [((lb : ℝ) : WithBot ℝ)] := by
  induction m with
  | zero => intro s; simp [fillAux]
  | succ n ih =>
    intro s
    simp only [List.replicate_succ, List.cons_append, fillAux, if_true, List.append_eq]
    rw [ih (s + 1), List.range_succ_eq_map]
    simp only [List.map_cons, List.map_map, List.cons_append, Nat.add_zero, Function.comp]
    have h : ∀ j : ℕ, s + 1 + j = s + (j + 1) := by omega
    simp [h]

lemma gap_mask_any (m : ℕ) (hm : 1 ≤ m) :
    (false :: (List.replicate m true ++ [false])).any id = true := by
  cases m with
  | zero => omega
  | succ n => simp [List.replicate_succ]

lemma gap_mask_all (m : ℕ) :
    (false :: (List.replicate m true ++ [false])).all id = false := by
  simp

/-- Index-value knot pairs `(st, y0), (st+1, y1), ...` of a voiced run
starting at frame `st`. -/
noncomputable def idxKnots : ℕ → List ℝ → List (ℝ × ℝ)
  | _, [] => []
  | st, y :: ys => (((st : ℕ) : ℝ), y) :: idxKnots (st + 1) ys

lemma derive_uv_append (l1 l2 : List ℝ) :
    derive_uv (l1 ++ l2) = derive_uv l1 ++ derive_uv l2 := by
  induction l1 with
  | nil => rfl
  | cons x xs ih => simp [derive_uv, ih]

lemma derive_uv_pos (l : List ℝ) (h : ∀ x ∈ l, 0 < x) :
    derive_uv l = List.replicate l.length false := by
  induction l with
  | nil => rfl
  | cons x xs ih =>
    have hx : x ≠ 0 := ne_of_gt (h x (by simp))
    simp [derive_uv, hx, List.replicate_succ, ih fun y hy => h y (by simp [hy])]

lemma derive_uv_zeros (m : ℕ) :
    derive_uv (List.replicate m (0 : ℝ)) = List.replicate m true := by
  induction m with
  | zero => rfl
  | succ n ih => simp [List.replicate_succ, derive_uv, ih]

lemma norm_f0_append (f1 f2 : List ℝ) (u1 u2 : List Bool) (h : f1.length = u1.length) :
    norm_f0 (f1 ++ f2) (u1 ++ u2) = norm_f0 f1 u1 ++ norm_f0 f2 u2 := by
  unfold norm_f0
  rw [List.zipWith_append _ _ _ _ _ h,
    List.zipWith_append _ _ _ _ _ (by rw [List.length_zipWith, h, min_self])]

lemma norm_f0_voiced (l : List ℝ) :
    norm_f0 l (List.replicate l.length false) =
      l.map fun x => ((Real.logb 2 x : ℝ) : WithBot ℝ) := by
  induction l with
  | nil => rfl
  | cons x xs ih =>
    simp only [List.length_cons, List.replicate_succ, norm_f0_cons, Bool.false_eq_true,
      if_false, boolInd, add_zero, List.map_cons]
    rw [ih]

lemma norm_f0_gap (m : ℕ) :
    norm_f0 (List.replicate m (0 : ℝ)) (List.replicate m true) = List.replicate m ⊥ := by
  induction m with
  | zero => rfl
  | succ n ih => simp [List.replicate_succ, norm_f0_cons, ih]

lemma voicedKnotsAux_voiced (ys : List ℝ) :
    ∀ (st : ℕ) (rest : List (WithBot ℝ)) (restMask : List Bool),
      voicedKnotsAux st ((ys.map fun y => ((y : ℝ) : WithBot ℝ)) ++ rest)
        (List.replicate ys.length false ++ restMask) =
      idxKnots st ys ++ voicedKnotsAux (st + ys.length) rest restMask := by
  induction ys with
  | nil => intro st rest restMask; simp [idxKnots]
  | cons y ys ih =>
    intro st rest restMask
    simp only [List.map_cons, List.length_cons, List.replicate_succ, List.cons_append,
      voicedKnotsAux, Bool.false_eq_true, if_false, WithBot.unbot'_coe, idxKnots,
      List.append_eq]
    rw [ih (st + 1)]
    have h : st + 1 + ys.length = st + (ys.length + 1) := by omega
    rw [h]

lemma voicedKnotsAux_gap (m : ℕ) :
    ∀ (st : ℕ) (rest : List (WithBot ℝ)) (restMask : List Bool),
      voicedKnotsAux st (List.replicate m ⊥ ++ rest) (List.replicate m true ++ restMask) =
      voicedKnotsAux (st + m) rest restMask := by
  induction m with
  | zero => intro st rest restMask; simp
  | succ n ih =>
    intro st rest restMask
    simp only [List.replicate_succ, List.cons_append, voicedKnotsAux, if_true,
      List.append_eq]
    rw [ih (st + 1)]
    have h : st + 1 + n = st + (n + 1) := by omega
    rw [h]

lemma voicedKnotsAux_voiced_all (ys : List ℝ) (st : ℕ) :
    voicedKnotsAux st (ys.map fun y => ((y : ℝ) : WithBot ℝ))
      (List.replicate ys.length false) = idxKnots st ys := by
  have h := voicedKnotsAux_voiced ys st [] []
  simpa [voicedKnotsAux] using h

lemma fillAux_voiced (g : ℝ → ℝ) (ys : List ℝ) :
    ∀ (st : ℕ) (rest : List (WithBot ℝ)) (restMask : List Bool),
      fillAux g st ((ys.map fun y => ((y : ℝ) : WithBot ℝ)) ++ rest)
        (List.replicate ys.length false ++ restMask) =
      (ys.map fun y => ((y : ℝ) : WithBot ℝ)) ++ fillAux g (st + ys.length) rest restMask := by
  induction ys with
  | nil => intro st rest restMask; simp
  | cons y ys ih =>
    intro st rest restMask
    simp only [List.map_cons, List.length_cons, List.replicate_succ, List.cons_append,
      fillAux, Bool.false_eq_true, if_false, List.append_eq]
    rw [ih (st + 1)]
    have h : st + 1 + ys.length = st + (ys.length + 1) := by omega
    rw [h]

lemma fillAux_gap (g : ℝ → ℝ) (m : ℕ) :
    ∀ (st : ℕ) (rest : List (WithBot ℝ)) (restMask : List Bool),
      fillAux g st (List.replicate m ⊥ ++ rest) (List.replicate m true ++ restMask) =
      ((List.range m).map fun j => ((g (((st + j : ℕ) : ℝ)) : ℝ) : WithBot ℝ)) ++
        fillAux g (st + m) rest restMask := by
  induction m with
  | zero => intro st rest restMask; simp
  | succ n ih =>
    intro st rest restMask
    simp only [List.replicate_succ, List.cons_append, fillAux, if_true, List.append_eq]
    rw [ih (st + 1), List.range_succ_eq_map]
    simp only [List.map_cons, List.map_map, List.cons_append, Nat.add_zero, Function.comp]
    have h : ∀ j : ℕ, st + 1 + j = st + (j + 1) := by omega
    simp [h]

lemma fillAux_voiced_all (g : ℝ → ℝ) (ys : List ℝ) (st : ℕ) :
    fillAux g st (ys.map fun y => ((y : ℝ) : WithBot ℝ)) (List.replicate ys.length false) =
      ys.map fun y => ((y : ℝ) : WithBot ℝ) := by
  have h := fillAux_voiced g ys st [] []
  simpa [fillAux] using h

lemma idxKnots_append (ys1 ys2 : List ℝ) :
    ∀ st : ℕ, idxKnots st (ys1 ++ ys2) = idxKnots st ys1 ++ idxKnots (st + ys1.length) ys2 := by
  induction ys1 with
  | nil => intro st; simp [idxKnots]
  | cons y ys ih =>
    intro st
    simp only [List.cons_append, idxKnots, List.length_cons, List.append_eq]
    rw [ih (st + 1)]
    have h : st + 1 + ys.length = st + (ys.length + 1) := by omega
    rw [h]

lemma idxKnots_x_lt (ys : List ℝ) :
    ∀ (st : ℕ) (z : ℝ × ℝ), z ∈ idxKnots st ys → z.1 < ((st + ys.length : ℕ) : ℝ) := by
  induction ys with
  | nil => intro st z hz; simp [idxKnots] at hz
  | cons y ys ih =>
    intro st z hz
    simp only [idxKnots, List.mem_cons] at hz
    rcases hz with rfl | hz
    · simp only [List.length_cons]
      show ((st : ℕ) : ℝ) < ((st + (ys.length + 1) : ℕ) : ℝ)
      have h : st < st + (ys.length + 1) := by omega
      exact_mod_cast h
    · have h := ih (st + 1) z hz
      simp only [List.length_cons]
      have heq : st + 1 + ys.length = st + (ys.length + 1) := by omega
      rw [heq] at h
      exact h

lemma npInterp_skip (t : ℝ) :
    ∀ (ks : List (ℝ × ℝ)) (q1 q2 : ℝ) (rest : List (ℝ × ℝ)),
      (∀ z ∈ ks, z.1 < t) → q1 < t →
      npInterp t (ks ++ (q1, q2) :: rest) = npInterp t ((q1, q2) :: rest) := by
  intro ks
  induction ks with
  | nil => intro q1 q2 rest _ _; rfl
  | cons z zs ih =>
    obtain ⟨z1, z2⟩ := z
    intro q1 q2 rest hks hq
    have hz1 : z1 < t := by simpa using hks (z1, z2) (List.mem_cons_self _ _)
    cases zs with
    | nil =>
      simp only [List.nil_append, List.cons_append, npInterp]
      rw [if_neg (not_le.mpr hz1), if_neg (not_le.mpr hq)]
    | cons w ws =>
      obtain ⟨w1, w2⟩ := w
      have hw1 : w1 < t := by simpa using hks (w1, w2) (by simp)
      simp only [List.cons_append, npInterp]
      rw [if_neg (not_le.mpr hz1), if_neg (not_le.mpr hw1)]
      exact ih q1 q2 rest (fun z hz => hks z (List.mem_cons_of_mem _ hz)) hq

/-- `np.interp` on sorted knots picks the segment whose left knot is the
last one strictly below the query. -/
lemma npInterp_gap (t : ℝ) (pre : List (ℝ × ℝ)) (xa fa xb fb : ℝ)
    (rest : List (ℝ × ℝ))
    (hpre : ∀ z ∈ pre, z.1 < t) (hxa : xa < t) (hxb : t ≤ xb) :
    npInterp t (pre ++ (xa, fa) :: (xb, fb) :: rest) =
      fa + (fb - fa) * (t - xa) / (xb - xa) := by
  rw [npInterp_skip t pre xa fa ((xb, fb) :: rest) hpre hxa]
  simp only [npInterp]
  rw [if_neg (not_le.mpr hxa), if_pos hxb]

lemma map_logb_coe (l : List ℝ) :
    (l.map fun x => ((Real.logb 2 x : ℝ) : WithBot ℝ)) =
      (l.map (Real.logb 2)).map fun y => ((y : ℝ) : WithBot ℝ) := by
  rw [List.map_map]
  rfl

lemma map_exp2_logb (l : List ℝ) (h : ∀ x ∈ l, 0 < x) :
    (l.map fun x => ((Real.logb 2 x : ℝ) : WithBot ℝ)).map exp2w = l := by
  induction l with
  | nil => rfl
  | cons x xs ih =>
    simp only [List.map_cons, exp2w, WithBot.recBotCoe_coe]
    rw [Real.rpow_logb (by norm_num) (by norm_num) (h x (by simp)),
      ih fun y hy => h y (by simp [hy])]

lemma denorm_none_append (l1 l2 : List (WithBot ℝ)) :
    denorm_f0 (l1 ++ l2) none = denorm_f0 l1 none ++ denorm_f0 l2 none := by
  simp [denorm_f0]

lemma denorm_none_logb (l : List ℝ) (h : ∀ x ∈ l, 0 < x) :
    denorm_f0 (l.map fun x => ((Real.logb 2 x : ℝ) : WithBot ℝ)) none = l := by
  simp only [denorm_f0]
  exact map_exp2_logb l h

/-- **C8 (amended).** On a contour made of a non-empty all-voiced prefix, a
single unvoiced run, and a non-empty all-voiced suffix, `interp_f0` (with
the mask derived from the zeros) leaves every voiced frame unchanged and
fills the unvoiced frames with monotonically interpolated values bounded
between the two voiced values adjacent to the gap, strictly between them
when those values differ. -/
theorem c8_single_gap_interp (p' s' : List ℝ) (a b : ℝ) (m : ℕ)
    (hp : ∀ x ∈ p', 0 < x) (hs : ∀ x ∈ s', 0 < x)
    (ha : 0 < a) (hb : 0 < b) (hm : 1 ≤ m) :
    (interp_f0 ((p' ++ [a]) ++ (List.replicate m 0 ++ (b :: s')))
        (derive_uv ((p' ++ [a]) ++ (List.replicate m 0 ++ (b :: s'))))).1 =
      (p' ++ [a]) ++ ((List.range m).map (gapFillVal a b m) ++ (b :: s')) ∧
    (a ≠ b → ∀ j, j < m →
      min a b < gapFillVal a b m j ∧ gapFillVal a b m j < max a b) ∧
    (∀ j, j < m → min a b ≤ gapFillVal a b m j ∧ gapFillVal a b m j ≤ max a b) ∧
    (∀ j1 j2, j1 < j2 → j2 < m →
      (a < b → gapFillVal a b m j1 < gapFillVal a b m j2) ∧
      (b < a → gapFillVal a b m j2 < gapFillVal a b m j1) ∧
      (a = b → gapFillVal a b m j1 = gapFillVal a b m j2)) := by
  have h2a : (2 : ℝ) ^ Real.logb 2 a = a := Real.rpow_logb (by norm_num) (by norm_num) ha
  have h2b : (2 : ℝ) ^ Real.logb 2 b = b := Real.rpow_logb (by norm_num) (by norm_num) hb
  have hfrac : ∀ j : ℕ, j < m →
      0 < ((j : ℝ) + 1) / ((m : ℝ) + 1) ∧ ((j : ℝ) + 1) / ((m : ℝ) + 1) < 1 := by
    intro j hj
    have hm1 : (0 : ℝ) < (m : ℝ) + 1 := by positivity
    constructor
    · positivity
    · rw [div_lt_one hm1]
      have hc : (j : ℝ) < (m : ℝ) := by exact_mod_cast hj
      linarith
  have hstrict : a ≠ b → ∀ j, j < m →
      min a b < gapFillVal a b m j ∧ gapFillVal a b m j < max a b := by
    intro hab j hj
    obtain ⟨hf0, hf1⟩ := hfrac j hj
    rcases lt_or_gt_of_ne hab with hlt | hgt
    · have hl : Real.logb 2 a < Real.logb 2 b := Real.logb_lt_logb (by norm_num) ha hlt
      have he1 : Real.logb 2 a <
          Real.logb 2 a + (Real.logb 2 b - Real.logb 2 a) * ((j : ℝ) + 1) / ((m : ℝ) + 1) := by
        have h := mul_pos (show (0 : ℝ) < Real.logb 2 b - Real.logb 2 a by linarith) hf0
        rw [mul_div_assoc]
        linarith
      have he2 : Real.logb 2 a +
          (Real.logb 2 b - Real.logb 2 a) * ((j : ℝ) + 1) / ((m : ℝ) + 1) < Real.logb 2 b := by
        have h : (Real.logb 2 b - Real.logb 2 a) * (((j : ℝ) + 1) / ((m : ℝ) + 1)) <
            (Real.logb 2 b - Real.logb 2 a) * 1 :=
          mul_lt_mul_of_pos_left hf1 (by linarith)
        rw [mul_div_assoc]
        linarith
      rw [min_eq_left hlt.le, max_eq_right hlt.le]
      constructor
      · rw [gapFillVal]
        have h := (Real.rpow_lt_rpow_left_iff (show (1 : ℝ) < 2 by norm_num)).mpr he1
        rw [h2a] at h
        exact h
      · rw [gapFillVal]
        have h := (Real.rpow_lt_rpow_left_iff (show (1 : ℝ) < 2 by norm_num)).mpr he2
        rw [h2b] at h
        exact h
    · have hl : Real.logb 2 b < Real.logb 2 a := Real.logb_lt_logb (by norm_num) hb hgt
      have he1 : Real.logb 2 b <
          Real.logb 2 a + (Real.logb 2 b - Real.logb 2 a) * ((j : ℝ) + 1) / ((m : ℝ) + 1) := by
        have h : (Real.logb 2 b - Real.logb 2 a) * 1 <
            (Real.logb 2 b - Real.logb 2 a) * (((j : ℝ) + 1) / ((m : ℝ) + 1)) :=
          mul_lt_mul_of_neg_left hf1 (by linarith)
        rw [mul_div_assoc]
        linarith
      have he2 : Real.logb 2 a +
          (Real.logb 2 b - Real.logb 2 a) * ((j : ℝ) + 1) / ((m : ℝ) + 1) < Real.logb 2 a := by
        have h := mul_neg_of_neg_of_pos
          (show Real.logb 2 b - Real.logb 2 a < 0 by linarith) hf0
        rw [mul_div_assoc]
        linarith
      rw [min_eq_right hgt.le, max_eq_left hgt.le]
      constructor
      · rw [gapFillVal]
        have h := (Real.rpow_lt_rpow_left_iff (show (1 : ℝ) < 2 by norm_num)).mpr he1
        rw [h2b] at h
        exact h
      · rw [gapFillVal]
        have h := (Real.rpow_lt_rpow_left_iff (show (1 : ℝ) < 2 by norm_num)).mpr he2
        rw [h2a] at h
        exact h
  refine ⟨?_, hstrict, ?_, ?_⟩
  · -- the computed contour
    have hpa : ∀ x ∈ p' ++ [a], 0 < x := by
      intro x hx
      rcases List.mem_append.mp hx with h | h
      · exact hp x h
      · rw [List.mem_singleton] at h
        subst h
        exact ha
    have hbs : ∀ x ∈ b :: s', 0 < x := by
      intro x hx
      rcases List.mem_cons.mp hx with rfl | h
      · exact hb
      · exact hs x h
    have hde : derive_uv ((p' ++ [a]) ++ (List.replicate m 0 ++ (b :: s'))) =
        List.replicate (p' ++ [a]).length false ++
          (List.replicate m true ++ List.replicate (b :: s').length false) := by
      rw [derive_uv_append, derive_uv_pos (p' ++ [a]) hpa, derive_uv_append,
        derive_uv_zeros, derive_uv_pos (b :: s') hbs]
    have hnorm : norm_f0 ((p' ++ [a]) ++ (List.replicate m 0 ++ (b :: s')))
        (List.replicate (p' ++ [a]).length false ++
          (List.replicate m true ++ List.replicate (b :: s').length false)) =
        ((p' ++ [a]).map fun x => ((Real.logb 2 x : ℝ) : WithBot ℝ)) ++
          (List.replicate m ⊥ ++
            ((b :: s').map fun x => ((Real.logb 2 x : ℝ) : WithBot ℝ))) := by
      rw [norm_f0_append _ _ _ _ (by simp), norm_f0_append _ _ _ _ (by simp),
        norm_f0_voiced, norm_f0_gap, norm_f0_voiced]
    have hmask_any : (List.replicate (p' ++ [a]).length false ++
        (List.replicate m true ++ List.replicate (b :: s').length false)).any id = true := by
      apply List.any_eq_true.mpr
      refine ⟨true, ?_, rfl⟩
      exact List.mem_append_right _ (List.mem_append_left _
        (List.mem_replicate.mpr ⟨by omega, rfl⟩))
    have hmask_all : (List.replicate (p' ++ [a]).length false ++
        (List.replicate m true ++ List.replicate (b :: s').length false)).all id = false := by
      cases hcase : (List.replicate (p' ++ [a]).length false ++
          (List.replicate m true ++ List.replicate (b :: s').length false)).all id with
      | false => rfl
      | true =>
        exfalso
        have hmem : false ∈ List.replicate (p' ++ [a]).length false ++
            (List.replicate m true ++ List.replicate (b :: s').length false) :=
          List.mem_append_left _ (List.mem_replicate.mpr ⟨by simp, rfl⟩)
        have h := List.all_eq_true.mp hcase false hmem
        simp at h
    have hknots : voicedKnots
        (((p' ++ [a]).map fun x => ((Real.logb 2 x : ℝ) : WithBot ℝ)) ++
          (List.replicate m ⊥ ++
            ((b :: s').map fun x => ((Real.logb 2 x : ℝ) : WithBot ℝ))))
        (List.replicate (p' ++ [a]).length false ++
          (List.replicate m true ++ List.replicate (b :: s').length false)) =
        idxKnots 0 ((p' ++ [a]).map (Real.logb 2)) ++
          idxKnots ((p' ++ [a]).length + m) ((b :: s').map (Real.logb 2)) := by
      unfold voicedKnots
      rw [map_logb_coe (p' ++ [a]), map_logb_coe (b :: s')]
      rw [show (p' ++ [a]).length = ((p' ++ [a]).map (Real.logb 2)).length from
        (List.length_map _ _).symm]
      rw [show (b :: s').length = ((b :: s').map (Real.logb 2)).length from
        (List.length_map _ _).symm]
      rw [voicedKnotsAux_voiced, voicedKnotsAux_gap, voicedKnotsAux_voiced_all]
      simp [List.length_map]
    have hfill : ∀ g : ℝ → ℝ,
        fillAux g 0
          (((p' ++ [a]).map fun x => ((Real.logb 2 x : ℝ) : WithBot ℝ)) ++
            (List.replicate m ⊥ ++
              ((b :: s').map fun x => ((Real.logb 2 x : ℝ) : WithBot ℝ))))
          (List.replicate (p' ++ [a]).length false ++
            (List.replicate m true ++ List.replicate (b :: s').length false)) =
        ((p' ++ [a]).map fun x => ((Real.logb 2 x : ℝ) : WithBot ℝ)) ++
          (((List.range m).map fun j =>
              ((g ((((p' ++ [a]).length + j : ℕ)) : ℝ) : ℝ) : WithBot ℝ)) ++
            ((b :: s').map fun x => ((Real.logb 2 x : ℝ) : WithBot ℝ))) := by
      intro g
      rw [map_logb_coe (p' ++ [a]), map_logb_coe (b :: s')]
      rw [show (p' ++ [a]).length = ((p' ++ [a]).map (Real.logb 2)).length from
        (List.length_map _ _).symm]
      rw [show (b :: s').length = ((b :: s').map (Real.logb 2)).length from
        (List.length_map _ _).symm]
      rw [fillAux_voiced, fillAux_gap, fillAux_voiced_all]
      simp [List.length_map]
    unfold interp_f0
    rw [hde, hnorm, hmask_any, hmask_all]
    simp only [Bool.not_false, Bool.and_self, if_true]
    rw [hknots, hfill]
    rw [denorm_none_append, denorm_none_append,
      denorm_none_logb (p' ++ [a]) hpa, denorm_none_logb (b :: s') hbs]
    simp only [denorm_f0]
    refine congrArg (fun l : List ℝ => (p' ++ [a]) ++ (l ++ (b :: s'))) ?_
    rw [List.map_map]
    apply List.map_congr_left
    intro j hj
    have hjm : j < m := List.mem_range.mp hj
    simp only [Function.comp_apply, exp2w, WithBot.recBotCoe_coe]
    have hknots2 : idxKnots 0 ((p' ++ [a]).map (Real.logb 2)) ++
        idxKnots ((p' ++ [a]).length + m) ((b :: s').map (Real.logb 2)) =
        idxKnots 0 (p'.map (Real.logb 2)) ++
          ((((p'.length : ℕ) : ℝ), Real.logb 2 a) ::
            (((((p'.length + 1 + m : ℕ)) : ℝ), Real.logb 2 b) ::
              idxKnots (p'.length + 1 + m + 1) (s'.map (Real.logb 2)))) := by
      rw [show (p' ++ [a]).map (Real.logb 2) =
          p'.map (Real.logb 2) ++ [Real.logb 2 a] by simp]
      rw [idxKnots_append]
      simp [idxKnots, List.length_map, List.length_append]
    rw [hknots2]
    have hteq : ((((p' ++ [a]).length + j : ℕ)) : ℝ) = (((p'.length + 1 + j : ℕ)) : ℝ) := by
      have h : (p' ++ [a]).length + j = p'.length + 1 + j := by simp
      rw [h]
    rw [hteq]
    have hpre3 : ∀ z ∈ idxKnots 0 (p'.map (Real.logb 2)),
        z.1 < (((p'.length + 1 + j : ℕ)) : ℝ) := by
      intro z hz
      have h := idxKnots_x_lt (p'.map (Real.logb 2)) 0 z hz
      have hle : 0 + (p'.map (Real.logb 2)).length ≤ p'.length + 1 + j := by
        rw [List.length_map]
        omega
      have h2 : ((0 + (p'.map (Real.logb 2)).length : ℕ) : ℝ) ≤
          (((p'.length + 1 + j : ℕ)) : ℝ) := by
        exact_mod_cast hle
      linarith
    have hxa3 : (((p'.length : ℕ)) : ℝ) < (((p'.length + 1 + j : ℕ)) : ℝ) := by
      have h : p'.length < p'.length + 1 + j := by omega
      exact_mod_cast h
    have hxb3 : (((p'.length + 1 + j : ℕ)) : ℝ) ≤ (((p'.length + 1 + m : ℕ)) : ℝ) := by
      have h : p'.length + 1 + j ≤ p'.length + 1 + m := by omega
      exact_mod_cast h
    rw [npInterp_gap _ _ _ _ _ _ _ hpre3 hxa3 hxb3]
    rw [gapFillVal]
    congr 1
    push_cast
    ring
  · intro j hj
    rcases Classical.em (a = b) with heq | hne2
    · subst heq
      have hv : gapFillVal a a m j = a := by
        rw [gapFillVal]
        simp [h2a]
      rw [hv]
      simp
    · exact ⟨(hstrict hne2 j hj).1.le, (hstrict hne2 j hj).2.le⟩
  · intro j1 j2 hj hj2
    have hm1 : (0 : ℝ) < (m : ℝ) + 1 := by positivity
    have hcast : (j1 : ℝ) < (j2 : ℝ) := by exact_mod_cast hj
    refine ⟨?_, ?_, ?_⟩
    · intro hlt
      have hl : Real.logb 2 a < Real.logb 2 b := Real.logb_lt_logb (by norm_num) ha hlt
      rw [gapFillVal, gapFillVal]
      apply (Real.rpow_lt_rpow_left_iff (by norm_num)).mpr
      have hmul : (Real.logb 2 b - Real.logb 2 a) * ((j1 : ℝ) + 1) <
          (Real.logb 2 b - Real.logb 2 a) * ((j2 : ℝ) + 1) :=
        mul_lt_mul_of_pos_left (by linarith) (by linarith)
      have hd := (div_lt_div_iff_of_pos_right hm1).mpr hmul
      linarith
    · intro hgt
      have hl : Real.logb 2 b < Real.logb 2 a := Real.logb_lt_logb (by norm_num) hb hgt
      rw [gapFillVal, gapFillVal]
      apply (Real.rpow_lt_rpow_left_iff (by norm_num)).mpr
      have hmul : (Real.logb 2 b - Real.logb 2 a) * ((j2 : ℝ) + 1) <
          (Real.logb 2 b - Real.logb 2 a) * ((j1 : ℝ) + 1) :=
        mul_lt_mul_of_neg_left (by linarith) (by linarith)
      have hd := (div_lt_div_iff_of_pos_right hm1).mpr hmul
      linarith
    · intro heq
      subst heq
      rw [gapFillVal, gapFillVal]
      congr 1
      ring

/-- Witness for C8 at the spec's example `[100, 0, 0, 200]` (empty voiced
prefix/suffix beyond the two frames adjacent to the gap): the two gap
values are strictly between 100 and 200, increase monotonically, and the
voiced frames are returned unchanged. -/
theorem c8_witness :
    (0 : ℝ) < 100 ∧ (0 : ℝ) < 200 ∧ 1 ≤ 2 ∧
      ((interp_f0 ((([] : List ℝ) ++ [100]) ++ (List.replicate 2 0 ++ (200 :: ([] : List ℝ))))
          (derive_uv ((([] : List ℝ) ++ [100]) ++
            (List.replicate 2 0 ++ (200 :: ([] : List ℝ)))))).1 =
        (([] : List ℝ) ++ [100]) ++
          ((List.range 2).map (gapFillVal 100 200 2) ++ (200 :: ([] : List ℝ))) ∧
      ((100 : ℝ) ≠ 200 → ∀ j, j < 2 →
        min (100 : ℝ) 200 < gapFillVal 100 200 2 j ∧
          gapFillVal 100 200 2 j < max (100 : ℝ) 200) ∧
      (∀ j, j < 2 →
        min (100 : ℝ) 200 ≤ gapFillVal 100 200 2 j ∧
          gapFillVal 100 200 2 j ≤ max (100 : ℝ) 200) ∧
      (∀ j1 j2, j1 < j2 → j2 < 2 →
        ((100 : ℝ) < 200 → gapFillVal 100 200 2 j1 < gapFillVal 100 200 2 j2) ∧
        ((200 : ℝ) < 100 → gapFillVal 100 200 2 j2 < gapFillVal 100 200 2 j1) ∧
        ((100 : ℝ) = 200 → gapFillVal 100 200 2 j1 = gapFillVal 100 200 2 j2))) :=
  ⟨by norm_num, by norm_num, by norm_num,
    c8_single_gap_interp [] [] 100 200 2 (by intro x hx; simp at hx)
      (by intro x hx; simp at hx) (by norm_num) (by norm_num) (by norm_num)⟩

/-- Counterexample to C8 as frozen: on `[100, 0, 100]` — a single unvoiced
run strictly between two voiced frames — `interp_f0` fills index 1 with
exactly `100`, which is not *strictly* between the two surrounding voiced
values (both `100`). -/
theorem c8_counterexample :
    (interp_f0 [100, 0, 100] (derive_uv [100, 0, 100])).1.getD 1 0 = 100 ∧
      ¬ (100 < (interp_f0 [100, 0, 100] (derive_uv [100, 0, 100])).1.getD 1 0 ∧
        (interp_f0 [100, 0, 100] (derive_uv [100, 0, 100])).1.getD 1 0 < 100) := by
  have hde : derive_uv [100, 0, 100] = [false, true, false] := by
    norm_num [derive_uv]
  have hnorm : norm_f0 [100, 0, 100] [false, true, false] =
      [((Real.logb 2 100 : ℝ) : WithBot ℝ), ⊥, ((Real.logb 2 100 : ℝ) : WithBot ℝ)] := by
    simp [norm_f0_cons, norm_f0, boolInd]
  have h2 : (2 : ℝ) ^ Real.logb 2 100 = 100 :=
    Real.rpow_logb (by norm_num) (by norm_num) (by norm_num)
  have hval : (interp_f0 [100, 0, 100] (derive_uv [100, 0, 100])).1 = [100, 100, 100] := by
    rw [hde]
    unfold interp_f0
    rw [hnorm]
    norm_num [voicedKnots, voicedKnotsAux, fillAux, npInterp, denorm_f0, exp2w,
      WithBot.unbot'_coe, WithBot.recBotCoe_coe, h2]
  rw [hval]
  norm_num

/-! ## Spline interpolation claim (C4) -/

/-- `norm_f0` with exceptions explicit.  With a supplied mask, `f0 + uv`
broadcasts — raising `ValueError` unless the lengths match or one operand
has length 1 — and the boolean assignment `f0[uv] = -inf` then requires
`uv` to have the broadcast length (`IndexError` otherwise).  Net effect:
success iff the lengths match or the contour has length 1 (which broadcasts
across the mask).  With `uv=None` the derived mask always fits, and an
empty contour passes through without error. -/
noncomputable def norm_f0_checked (f0 : List ℝ) (uv : Option (List Bool)) :
    Option (List (WithBot ℝ)) :=
  match uv with
  | none => some (norm_f0 f0 (derive_uv f0))
  | some uv =>
    if f0.length = uv.length then some (norm_f0 f0 uv)
    else if f0.length = 1 then some (norm_f0 (List.replicate uv.length (f0.getD 0 0)) uv)
    else none

/-- `interp_f0` with exceptions explicit (`uv=None` path): it has no
raising executions — empty, all-voiced and all-unvoiced contours all
return normally. -/
noncomputable def interp_f0_checked (f0 : List ℝ) : Option (List ℝ × List Bool) :=
  some (interp_f0 f0 (derive_uv f0))

/-- Number of voiced frames under the derived mask. -/
noncomputable def voicedCount (f0 : List ℝ) : ℕ :=
  ((derive_uv f0).filter fun u => !u).length

/-- `interp_f0_spline` with exceptions explicit (`uv=None` path):
`np.max` raises `ValueError` on an empty contour, and
`scipy.interpolate.CubicSpline` raises on fewer than two knots — reached
exactly when the interpolation branch runs with a single voiced frame. -/
noncomputable def interp_f0_spline_checked (f0 : List ℝ) : Option (List ℝ × List Bool) :=
  if f0 = [] then none
  else if ((derive_uv f0).any id && !(derive_uv f0).all id) = true ∧ voicedCount f0 = 1 then
    none
  else some (interp_f0_spline f0 (derive_uv f0))

/-- Counterexample to C3 as frozen: `get_mel_fn` does not fail fast on
`fmin ≥ fmax` — at `fmin = 200 > fmax = 100` it still returns a matrix. -/
theorem c3_counterexample :
    (get_mel_fn_checked 44100 2048 128 200 100 true).isSome = true := by
  unfold get_mel_fn_checked
  rw [if_neg (by decide)]
  rfl

/-- **C3 (amended).** The actual fail-fast behaviour: `get_mel_fn` raises
exactly on `fft_size = 0`, negative `n_mels`, or `1 + fft_size // 2 < 0`
(i.e. `fft_size ≤ -3`, a negative `torch.zeros` dimension) — never on
`fmin ≥ fmax` or `n_mels = 0`; `norm_f0` with a supplied mask raises
exactly on mismatched lengths, except that a length-1 contour broadcasts;
an empty contour passes through `norm_f0` and `interp_f0` without error,
while `interp_f0_spline` raises on it (`np.max` of an empty array). -/
theorem c3_error_behavior :
    (∀ (sr : ℝ) (n_fft n_mels : ℤ) (fmin fmax : ℝ) (htk : Bool),
      (get_mel_fn_checked sr n_fft n_mels fmin fmax htk).isSome = true ↔
        (n_fft ≠ 0 ∧ 0 ≤ n_mels ∧ 0 ≤ 1 + Int.fdiv n_fft 2)) ∧
    (∀ (f0 : List ℝ) (uv : List Bool),
      (norm_f0_checked f0 (some uv)).isSome = true ↔
        (f0.length = uv.length ∨ f0.length = 1)) ∧
    norm_f0_checked [] none = some [] ∧
    interp_f0_checked [] = some ([], []) ∧
    interp_f0_spline_checked [] = none := by
  refine ⟨?_, ?_, ?_, ?_, ?_⟩
  · intro sr n_fft n_mels fmin fmax htk
    unfold get_mel_fn_checked
    set q := Int.fdiv n_fft 2 with hq
    rcases Classical.em (n_fft = 0 ∨ n_mels < 0 ∨ 1 + q < 0) with h | h
    · rw [if_pos h]
      simp only [Option.isSome_none, Bool.false_eq_true, false_iff]
      omega
    · rw [if_neg h]
      simp only [Option.isSome_some, true_iff]
      omega
  · intro f0 uv
    show (if f0.length = uv.length then some (norm_f0 f0 uv)
        else if f0.length = 1 then some (norm_f0 (List.replicate uv.length (f0.getD 0 0)) uv)
        else none).isSome = true ↔ (f0.length = uv.length ∨ f0.length = 1)
    rcases Classical.em (f0.length = uv.length) with h1 | h1
    · rw [if_pos h1]
      simp [h1]
    · rw [if_neg h1]
      rcases Classical.em (f0.length = 1) with h2 | h2
      · rw [if_pos h2]
        simp [h1, h2]
      · rw [if_neg h2]
        simp only [Option.isSome_none, Bool.false_eq_true, false_iff]
        tauto
  · rfl
  · rfl
  · rfl

/-! ## `get_n_fft` (utils.py lines 127-145) -/

/-- `f0[f0 > 20]` (line 137). -/
noncomputable def keepAbove20 : List ℝ → List ℝ
  | [] => []
  | x :: xs => if 20 < x then x :: keepAbove20 xs else keepAbove20 xs

/-- `torch.round`: round to nearest, ties to even. -/
noncomputable def roundHalfEven (x : ℝ) : ℤ :=
  if x - ⌊x⌋ = 1 / 2 then (if Even ⌊x⌋ then ⌊x⌋ else ⌊x⌋ + 1) else round x

/-- `get_n_fft` (lines 127-145) over reals: drop frames `≤ 20` Hz, take the
minimum, cap it at 1000, set
`max_winsize = round(sr / f0_min * relative_winsize / 2) * 2` and
`n_fft = 2 ** ceil(log2 max_winsize)`.  (In torch, `log2 0 = -inf` and
`2 ** -inf = 0`; the `≤ 0` guard returns the same value `0` in that
degenerate case.) -/
noncomputable def get_n_fft (f0 : List ℝ) (sr : ℝ) (relative_winsize : ℝ) : ℝ × ℝ :=
  let fm := listMin (keepAbove20 f0)
  let f0_min := if 1000 < fm then 1000 else fm
  let max_winsize := (roundHalfEven (sr / f0_min * relative_winsize / 2) : ℝ) * 2
  let n_fft :=
    if max_winsize ≤ 0 then 0 else (2 : ℝ) ^ ((⌈Real.logb 2 max_winsize⌉ : ℤ) : ℝ)
  (n_fft, f0_min)

lemma keepAbove20_mem (l : List ℝ) : ∀ x, x ∈ keepAbove20 l ↔ (x ∈ l ∧ 20 < x) := by
  induction l with
  | nil => intro x; simp [keepAbove20]
  | cons y ys ih =>
    intro x
    simp only [keepAbove20]
    split_ifs with hy
    · rw [List.mem_cons, List.mem_cons, ih x]
      constructor
      · rintro (rfl | ⟨h1, h2⟩)
        · exact ⟨Or.inl rfl, hy⟩
        · exact ⟨Or.inr h1, h2⟩
      · rintro ⟨rfl | h1, h2⟩
        · exact Or.inl rfl
        · exact Or.inr ⟨h1, h2⟩
    · rw [ih x, List.mem_cons]
      constructor
      · rintro ⟨h1, h2⟩
        exact ⟨Or.inr h1, h2⟩
      · rintro ⟨rfl | h1, h2⟩
        · exact absurd h2 hy
        · exact ⟨h1, h2⟩

lemma foldl_min_le (xs : List ℝ) : ∀ a : ℝ, xs.foldl min a ≤ a ∧ ∀ x ∈ xs, xs.foldl min a ≤ x := by
  induction xs with
  | nil => intro a; exact ⟨le_refl a, by simp⟩
  | cons y ys ih =>
    intro a
    have h := ih (min a y)
    refine ⟨le_trans h.1 (min_le_left a y), ?_⟩
    intro x hx
    rcases List.mem_cons.mp hx with rfl | hx
    · exact le_trans h.1 (min_le_right a x)
    · exact h.2 x hx

lemma foldl_min_mem (xs : List ℝ) : ∀ a : ℝ, xs.foldl min a = a ∨ xs.foldl min a ∈ xs := by
  induction xs with
  | nil => intro a; exact Or.inl rfl
  | cons y ys ih =>
    intro a
    rcases ih (min a y) with h | h
    · rcases le_total a y with hay | hay
      · exact Or.inl (by rw [List.foldl_cons, h, min_eq_left hay])
      · exact Or.inr (by
          rw [List.foldl_cons, h, min_eq_right hay]
          exact List.mem_cons_self y ys)
    · exact Or.inr (List.mem_cons_of_mem y h)

lemma listMin_mem (l : List ℝ) (h : l ≠ []) : listMin l ∈ l := by
  cases l with
  | nil => exact absurd rfl h
  | cons x xs =>
    show xs.foldl min x ∈ x :: xs
    rcases foldl_min_mem xs x with h1 | h1
    · rw [h1]; exact List.mem_cons_self x xs
    · exact List.mem_cons_of_mem x h1

lemma listMin_le (l : List ℝ) : ∀ y ∈ l, listMin l ≤ y := by
  intro y hy
  cases l with
  | nil => simp at hy
  | cons x xs =>
    rcases List.mem_cons.mp hy with rfl | hy
    · exact (foldl_min_le xs y).1
    · exact (foldl_min_le xs x).2 y hy

/-- The smallest power of two that is at least `m` (for `m ≥ 2`) is
`2 ^ ⌈log2 m⌉`. -/
lemma pow2_ceil_isLeast (m : ℝ) (hm : 2 ≤ m) :
    IsLeast {p : ℝ | (∃ k : ℕ, p = 2 ^ k) ∧ m ≤ p}
      ((2 : ℝ) ^ ((⌈Real.logb 2 m⌉ : ℤ) : ℝ)) := by
  have hmpos : (0 : ℝ) < m := by linarith
  have hlog1 : (1 : ℝ) ≤ Real.logb 2 m := by
    rw [Real.le_logb_iff_rpow_le (by norm_num) hmpos]
    rw [show ((1 : ℝ)) = ((1 : ℕ) : ℝ) by norm_num, Real.rpow_natCast]
    simpa using hm
  have hceil1 : 1 ≤ ⌈Real.logb 2 m⌉ := by
    have h := Int.le_ceil (Real.logb 2 m)
    have h2 : (1 : ℝ) ≤ (⌈Real.logb 2 m⌉ : ℝ) := le_trans hlog1 h
    exact_mod_cast h2
  constructor
  · refine ⟨⟨⌈Real.logb 2 m⌉.toNat, ?_⟩, ?_⟩
    · rw [← Real.rpow_natCast]
      congr 1
      exact_mod_cast (Int.toNat_of_nonneg (by omega)).symm
    · calc m = (2 : ℝ) ^ Real.logb 2 m :=
          (Real.rpow_logb (by norm_num) (by norm_num) hmpos).symm
      _ ≤ (2 : ℝ) ^ ((⌈Real.logb 2 m⌉ : ℤ) : ℝ) := by
          apply (Real.rpow_le_rpow_left_iff (by norm_num)).mpr
          exact Int.le_ceil _
  · rintro p ⟨⟨k, rfl⟩, hmp⟩
    have hlogk : Real.logb 2 m ≤ (k : ℝ) := by
      rw [Real.logb_le_iff_le_rpow (by norm_num) hmpos, Real.rpow_natCast]
      exact hmp
    have hck : ⌈Real.logb 2 m⌉ ≤ (k : ℤ) := Int.ceil_le.mpr (by exact_mod_cast hlogk)
    rw [← Real.rpow_natCast]
    apply (Real.rpow_le_rpow_left_iff (by norm_num)).mpr
    exact_mod_cast hck

/-- **C10.** For a pitch list with at least one frame strictly above 20 Hz
(and a window of at least one sample), `get_n_fft` returns
`(n_fft, f0_min)` where `f0_min` is the minimum of the frames above 20 Hz
capped at 1000, `n_fft` is the smallest power of two at least
`round(sr / f0_min * relative_winsize / 2) * 2`, and frames at or below
20 Hz never influence the result. -/
theorem c10_get_n_fft (f0 : List ℝ) (sr relw : ℝ)
    (hex : ∃ x ∈ f0, 20 < x)
    (hrnd : 1 ≤ roundHalfEven (sr / (get_n_fft f0 sr relw).2 * relw / 2)) :
    ((get_n_fft f0 sr relw).2 =
        (if 1000 < listMin (keepAbove20 f0) then 1000 else listMin (keepAbove20 f0)) ∧
      IsLeast {y | y ∈ f0 ∧ 20 < y} (listMin (keepAbove20 f0))) ∧
    IsLeast {p : ℝ | (∃ k : ℕ, p = 2 ^ k) ∧
        (roundHalfEven (sr / (get_n_fft f0 sr relw).2 * relw / 2) : ℝ) * 2 ≤ p}
      (get_n_fft f0 sr relw).1 ∧
    (∀ g : List ℝ, keepAbove20 g = keepAbove20 f0 →
      get_n_fft g sr relw = get_n_fft f0 sr relw) := by
  have hne : keepAbove20 f0 ≠ [] := by
    obtain ⟨x, hx, hx20⟩ := hex
    intro hcon
    have hmem := (keepAbove20_mem f0 x).mpr ⟨hx, hx20⟩
    rw [hcon] at hmem
    simp at hmem
  refine ⟨⟨rfl, ?_, ?_⟩, ?_, ?_⟩
  · exact (keepAbove20_mem f0 _).mp (listMin_mem _ hne)
  · intro y hy
    exact listMin_le _ y ((keepAbove20_mem f0 y).mpr hy)
  · have hm2 : (2 : ℝ) ≤ (roundHalfEven (sr / (get_n_fft f0 sr relw).2 * relw / 2) : ℝ) * 2 := by
      have h1 : (1 : ℝ) ≤ (roundHalfEven (sr / (get_n_fft f0 sr relw).2 * relw / 2) : ℝ) := by
        exact_mod_cast hrnd
      linarith
    have h1 : (get_n_fft f0 sr relw).1 =
        (if ((roundHalfEven (sr / (get_n_fft f0 sr relw).2 * relw / 2) : ℝ) * 2) ≤ 0 then (0 : ℝ)
         else (2 : ℝ) ^
            ((⌈Real.logb 2
                ((roundHalfEven (sr / (get_n_fft f0 sr relw).2 * relw / 2) : ℝ) * 2)⌉ : ℤ) : ℝ)) :=
      rfl
    rw [h1, if_neg (by linarith)]
    exact pow2_ceil_isLeast _ hm2
  · intro g hg
    simp only [get_n_fft, hg]

/-- Witness for C10 on `f0 = [100]`, `sr = 44100`, `relative_winsize = 4`
(where `round(44100 / 100 * 4 / 2) * 2 = 1764` and `n_fft = 2048`). -/
theorem c10_witness :
    (∃ x ∈ ([100] : List ℝ), 20 < x) ∧
      1 ≤ roundHalfEven (44100 / (get_n_fft [100] 44100 4).2 * 4 / 2) ∧
      (((get_n_fft [100] 44100 4).2 =
          (if 1000 < listMin (keepAbove20 [100]) then 1000 else listMin (keepAbove20 [100])) ∧
        IsLeast {y | y ∈ ([100] : List ℝ) ∧ 20 < y} (listMin (keepAbove20 [100]))) ∧
      IsLeast {p : ℝ | (∃ k : ℕ, p = 2 ^ k) ∧
          (roundHalfEven (44100 / (get_n_fft [100] 44100 4).2 * 4 / 2) : ℝ) * 2 ≤ p}
        (get_n_fft [100] 44100 4).1 ∧
      (∀ g : List ℝ, keepAbove20 g = keepAbove20 [100] →
        get_n_fft g 44100 4 = get_n_fft [100] 44100 4)) := by
  have hk : keepAbove20 ([100] : List ℝ) = [100] := by
    simp only [keepAbove20]
    rw [if_pos (by norm_num : (20 : ℝ) < 100)]
  have h2 : (get_n_fft [100] 44100 4).2 = 100 := by
    show (if 1000 < listMin (keepAbove20 [100]) then (1000 : ℝ)
        else listMin (keepAbove20 [100])) = 100
    rw [hk]
    show (if (1000 : ℝ) < 100 then (1000 : ℝ) else 100) = 100
    rw [if_neg (by norm_num)]
  have hfl : ⌊(882 : ℝ)⌋ = 882 := by
    rw [Int.floor_eq_iff] <;> norm_num
  have hr882 : roundHalfEven (882 : ℝ) = 882 := by
    unfold roundHalfEven
    rw [if_neg (by rw [hfl]; norm_num)]
    rw [round_eq]
    rw [show ⌊(882 : ℝ) + 1 / 2⌋ = 882 by rw [Int.floor_eq_iff] <;> norm_num]
  have hrnd : 1 ≤ roundHalfEven (44100 / (get_n_fft [100] 44100 4).2 * 4 / 2) := by
    rw [h2, show (44100 : ℝ) / 100 * 4 / 2 = 882 by norm_num, hr882]
    norm_num
  exact ⟨⟨100, by simp, by norm_num⟩, hrnd,
    c10_get_n_fft [100] 44100 4 ⟨100, by simp, by norm_num⟩ hrnd⟩

end TTDV
